import Mathlib

/-!
Shallow embedding of `cs285/networks/policies.py` (classes `MLPPolicy` and
`MLPPolicyPG`) from the homework repository.

Modelling conventions:

* Real-valued tensors are modelled over `ℝ`; a 1-D tensor is a `List ℝ` and a
  2-D batch is a `List (List ℝ)` of rows.
* The feed-forward approximator returned by `ptu.build_mlp` lives in
  `cs285/infrastructure/pytorch_util.py`, which is not among the sources;
  following the spec it is an external collaborator, modelled as a black-box
  function `List ℝ → List ℝ` applied row by row (a torch MLP acts on a batch
  exactly by acting on each row).
* `torch.distributions.Categorical(logits=l)` has
  `log_prob(a) = l[a] - logsumexp(l)`; `torch.distributions.Normal(loc, scale)`
  has elementwise `log_prob(x) = -(x - loc)^2 / (2 scale^2) - log scale -
  log sqrt(2 pi)`.  Sampling is modelled by passing the random draws (a uniform
  variate for `Categorical.sample`, standard normal variates for
  `Normal.rsample`) explicitly; `Categorical` has no `rsample` (in torch its
  `has_rsample` is `False`), hence `rsample` is `Option`-valued.
* Elementwise binary torch operations on 1-D tensors of unequal length fail
  unless one operand has length 1, in which case it is broadcast
  (`broadcastWith`); the same rule governs the batch axis of `log_prob`.
* Gradient accumulation, `loss.backward()` and the Adam step are torch
  internals; the spec treats the optimizer as a provided primitive
  `applyStep(parameters, gradients, learningRate)`, modelled by `gradStep`
  below using the Mathlib gradient on a real inner-product space of
  parameters.
-/

/-- A numpy value handed back to the caller by `ptu.to_numpy`: either a
scalar-shaped array or a one-dimensional array. -/
inductive NDArray where
  | scalar (x : ℝ)
  | vector (v : List ℝ)

/-- A batch of actions passed to `update`: a batch of action indices in the
discrete case, a batch of action rows in the continuous case. -/
inductive ActionsBatch where
  | idx (l : List ℕ)
  | vec (l : List (List ℝ))

/-- Batch size of an actions batch. -/
def ActionsBatch.size : ActionsBatch → ℕ
  | .idx l => l.length
  | .vec l => l.length

/-- The random draws consumed by one sampling call: a uniform variate `u` for
categorical sampling and a vector `eps` of standard normal variates for the
reparameterized Gaussian sample. -/
structure Noise where
  u : ℝ
  eps : List ℝ

/-- Pointwise combination of three lists, truncating at the shortest. -/
def zipWith3 (f : α → β → γ → δ) : List α → List β → List γ → List δ
  | a :: as, b :: bs, c :: cs => f a b c :: zipWith3 f as bs cs
  | _, _, _ => []

/-- Collect a list of optional values, failing if any entry fails. -/
def seqOpt : List (Option α) → Option (List α)
  | [] => some []
  | x :: xs => x.bind fun v => (seqOpt xs).map fun vs => v :: vs

/-- Elementwise combination with torch 1-D broadcasting: equal lengths combine
pointwise, a length-1 operand is broadcast, anything else is a shape error. -/
def broadcastWith (f : α → β → γ) (xs : List α) (ys : List β) : Option (List γ) :=
  if xs.length = ys.length then some (List.zipWith f xs ys)
  else
    match xs, ys with
    | [x], ys => some (ys.map (f x))
    | xs, [y] => some (xs.map fun x => f x y)
    | _, _ => none

/-- Log of the sum of exponentials of a list of scores. -/
noncomputable def logsumexp (l : List ℝ) : ℝ :=
  Real.log (l.map Real.exp).sum

/-- Softmax of a list of scores. -/
noncomputable def softmax (l : List ℝ) : List ℝ :=
  l.map fun x => Real.exp x / (l.map Real.exp).sum

/-- Log-probability of index `a` under `torch.distributions.Categorical` with
unnormalized log-probabilities `logits`. -/
noncomputable def categoricalLogProb (logits : List ℝ) (a : ℕ) : ℝ :=
  logits.getD a 0 - logsumexp logits

/-- Gaussian log-density with mean `μ` and standard deviation `σ` at `x`, as
computed by `torch.distributions.Normal.log_prob`. -/
noncomputable def normalLogPdf (μ σ x : ℝ) : ℝ :=
  -((x - μ) ^ 2) / (2 * σ ^ 2) - Real.log σ - Real.log (Real.sqrt (2 * Real.pi))

/-- Inverse-CDF selection of an index from a list of probability masses given
a uniform variate; out-of-range variates select the last index. -/
noncomputable def invCdf : List ℝ → ℝ → ℕ
  | [], _ => 0
  | [_], _ => 0
  | p :: q :: rest, u => if u < p then 0 else invCdf (q :: rest) (u - p) + 1

/-- Draw from a categorical distribution given raw scores and a uniform
variate: inverse-CDF sampling from the softmax masses. -/
noncomputable def categoricalSample (logits : List ℝ) (u : ℝ) : ℕ :=
  invCdf (softmax logits) u

/-- The transient action-distribution value produced by a forward pass:
either `Categorical(logits)` over one observation's raw scores, or an
independent per-dimension `Normal(loc, scale)`. -/
inductive ActionDistribution where
  | categorical (logits : List ℝ)
  | normal (loc : List ℝ) (scale : List ℝ)

/-- Log-probability of one action index under the distribution
(`Categorical.log_prob`); an index outside the support raises in torch (the
support validation, and the underlying gather, both throw), so it yields no
value here; an index query against a Gaussian is a type error. -/
noncomputable def ActionDistribution.logProbIdx : ActionDistribution → ℕ → Option ℝ
  | .categorical logits, a =>
      if a < logits.length then some (categoricalLogProb logits a) else none
  | .normal _ _, _ => none

/-- Per-dimension log-probabilities of one action row under the distribution
(`Normal.log_prob`), failing on a shape mismatch; a row query against a
categorical distribution is a type error. -/
noncomputable def ActionDistribution.logProbRow :
    ActionDistribution → List ℝ → Option (List ℝ)
  | .normal loc scale, x =>
      if loc.length = x.length ∧ scale.length = loc.length then
        some (zipWith3 normalLogPdf loc scale x)
      else none
  | .categorical _, _ => none

/-- Standard (non-reparameterized) draw, `Distribution.sample()`. -/
noncomputable def ActionDistribution.sample : ActionDistribution → Noise → NDArray
  | .categorical logits, z => .scalar (categoricalSample logits z.u : ℕ)
  | .normal loc scale, z =>
      .vector (zipWith3 (fun m s e => m + s * e) loc scale z.eps)

/-- Reparameterized draw, `Distribution.rsample()`: location plus scale times
noise for a Gaussian; `Categorical` does not support it. -/
noncomputable def ActionDistribution.rsample : ActionDistribution → Noise → Option NDArray
  | .categorical _, _ => none
  | .normal loc scale, z =>
      some (.vector (zipWith3 (fun m s e => m + s * e) loc scale z.eps))

/-- State of an `MLPPolicy` object: fixed dimensions and mode, the current
approximator function (`logits_net` in discrete mode, `mean_net` in continuous
mode), the current `logstd` parameter (continuous mode only) and the learning
rate held by the optimizer. -/
structure MLPPolicy where
  ac_dim : ℕ
  ob_dim : ℕ
  discrete : Bool
  net : List ℝ → List ℝ
  logstd : List ℝ
  learning_rate : ℝ

/-- Constructor `MLPPolicy.__init__`.  Modelled from the spec: `ptu.build_mlp`
(in `cs285/infrastructure`, not among the sources) is a black-box builder
mapping `(input_size, output_size, n_layers, size)` to an approximator
function.  The source performs no validation of the dimensions; `logstd` is
created as `torch.zeros(ac_dim)` only in the continuous branch. -/
def MLPPolicy.init (ac_dim ob_dim : ℕ) (discrete : Bool) (n_layers layer_size : ℕ)
    (learning_rate : ℝ) (build_mlp : ℕ → ℕ → ℕ → ℕ → List ℝ → List ℝ) : MLPPolicy :=
  { ac_dim := ac_dim
    ob_dim := ob_dim
    discrete := discrete
    net := build_mlp ob_dim ac_dim n_layers layer_size
    logstd := if discrete then [] else List.replicate ac_dim 0
    learning_rate := learning_rate }

/-- Forward pass of `MLPPolicy` on one observation row: a categorical
distribution directly over the raw scores in discrete mode, a Gaussian with
mean from the net and scale `exp(logstd)` in continuous mode. -/
noncomputable def MLPPolicy.forward (p : MLPPolicy) (obs : List ℝ) : ActionDistribution :=
  if p.discrete then
    ActionDistribution.categorical (p.net obs)
  else
    ActionDistribution.normal (p.net obs) (p.logstd.map Real.exp)

/-- The method `MLPPolicy.get_action`: build the forward distribution for the
single observation, draw via `sample` in discrete mode and `rsample` in
continuous mode, and convert the draw back to a numpy value. -/
noncomputable def MLPPolicy.get_action (p : MLPPolicy) (obs : List ℝ) (z : Noise) :
    Option NDArray :=
  let action_distribution := p.forward obs
  if p.discrete then some (action_distribution.sample z)
  else action_distribution.rsample z

/-- The method `MLPPolicy.update` of the abstract base class: it only raises
`NotImplementedError`. -/
def MLPPolicy.update (p : MLPPolicy) (obs : List (List ℝ)) (actions : ActionsBatch) :
    Except String (List (String × ℝ)) :=
  Except.error "NotImplementedError"

/-- The tensor `log_p` computed inside `MLPPolicyPG.update`: log-probability of
each taken action under the freshly recomputed forward distribution, with the
per-dimension log-probabilities summed across the action-dimension axis in
continuous mode.  The batch axis follows torch broadcasting. -/
noncomputable def MLPPolicyPG.logProbBatch (p : MLPPolicy) (obs : List (List ℝ)) :
    ActionsBatch → Option (List ℝ)
  | .idx acts =>
      if p.discrete then
        match broadcastWith (fun o a => (p.forward o).logProbIdx a) obs acts with
        | none => none
        | some rows => seqOpt rows
      else none
  | .vec acts =>
      if p.discrete then none
      else
        match broadcastWith
            (fun o a => ((p.forward o).logProbRow a).map List.sum) obs acts with
        | none => none
        | some rows => seqOpt rows

/-- The method `MLPPolicyPG.update`, loss part: recompute the distribution,
take log-probabilities of the taken actions, and return
`-(log_p * advantages).mean()` (the value reported as "Actor Loss"). -/
noncomputable def MLPPolicyPG.update (p : MLPPolicy) (obs : List (List ℝ))
    (actions : ActionsBatch) (advantages : List ℝ) : Option ℝ :=
  match MLPPolicyPG.logProbBatch p obs actions with
  | none => none
  | some log_p =>
      match broadcastWith (fun lp adv => lp * adv) log_p advantages with
      | none => none
      | some prod => some (-(prod.sum / (prod.length : ℝ)))

/-- Modelled from the spec: the optimizer (its internal state-update algorithm
lives in torch, not among the sources) is the provided primitive
`applyStep(parameters, gradients, learningRate)` — one in-place
gradient-descent step on the joint parameter point. -/
noncomputable def gradStep {F : Type} [NormedAddCommGroup F] [InnerProductSpace ℝ F]
    [CompleteSpace F] (lr : ℝ) (f : F → ℝ) (θ : F) : F :=
  θ - lr • gradient f θ

/-- The whole of `MLPPolicyPG.update` including its side effect, for a policy
whose trainable parameters (approximator weights and, in continuous mode,
`logstd`) are gathered in one joint parameter point `θ` of an inner-product
space: the loss is computed at the current parameters, one optimizer step is
applied to the loss-as-a-function-of-parameters, and the dictionary
`[("Actor Loss", loss)]` is returned. -/
noncomputable def MLPPolicyPG.updateStep {F : Type} [NormedAddCommGroup F]
    [InnerProductSpace ℝ F] [CompleteSpace F] (pol : F → MLPPolicy) (lr : ℝ)
    (obs : List (List ℝ)) (actions : ActionsBatch) (advantages : List ℝ) (θ : F) :
    Option (List (String × ℝ) × F) :=
  match MLPPolicyPG.update (pol θ) obs actions advantages with
  | none => none
  | some loss =>
      some ([("Actor Loss", loss)],
        gradStep lr (fun t => (MLPPolicyPG.update (pol t) obs actions advantages).getD 0) θ)

/-- Concrete discrete policy used in witnesses: two actions, raw scores both
zero for every observation. -/
noncomputable def pWd : MLPPolicy :=
  { ac_dim := 2, ob_dim := 1, discrete := true, net := fun _ => [0, 0],
    logstd := [], learning_rate := 1 }

/-- Concrete continuous policy used in witnesses: one action dimension, mean
zero for every observation, `logstd` zero. -/
noncomputable def pWc : MLPPolicy :=
  { ac_dim := 1, ob_dim := 1, discrete := false, net := fun _ => [0],
    logstd := [0], learning_rate := 1 }

/-- Concrete one-parameter family of discrete policies used in witnesses: the
single score is the parameter itself. -/
noncomputable def polW : ℝ → MLPPolicy := fun t =>
  { ac_dim := 1, ob_dim := 1, discrete := true, net := fun _ => [t],
    logstd := [], learning_rate := 1 }

/-! Helper lemmas about the combinators. -/

theorem broadcastWith_of_length_eq {f : α → β → γ} {xs : List α} {ys : List β}
    (h : xs.length = ys.length) :
    broadcastWith f xs ys = some (List.zipWith f xs ys) := by
  rw [broadcastWith.eq_def, if_pos h]

theorem broadcastWith_none {f : α → β → γ} {xs : List α} {ys : List β}
    (h : xs.length ≠ ys.length) (h1 : xs.length ≠ 1) (h2 : ys.length ≠ 1) :
    broadcastWith f xs ys = none := by
  rcases xs with _ | ⟨x, _ | ⟨x2, xs⟩⟩
  · rcases ys with _ | ⟨y, _ | ⟨y2, ys⟩⟩
    · exact absurd rfl h
    · exact absurd rfl h2
    · rw [broadcastWith.eq_def, if_neg h]
  · exact absurd rfl h1
  · rcases ys with _ | ⟨y, _ | ⟨y2, ys⟩⟩
    · rw [broadcastWith.eq_def, if_neg h]
    · exact absurd rfl h2
    · rw [broadcastWith.eq_def, if_neg h]

theorem seqOpt_zipWith_some {g : α → β → γ} :
    ∀ (xs : List α) (ys : List β),
      seqOpt (List.zipWith (fun x y => some (g x y)) xs ys) =
        some (List.zipWith g xs ys) := by
  intro xs
  induction xs with
  | nil => intro ys; rfl
  | cons x xs ih =>
    intro ys
    cases ys with
    | nil => rfl
    | cons y ys => simp [seqOpt, ih ys]

theorem seqOpt_zipWith_of_mem {g : α → β → Option γ} {g' : α → β → γ} :
    ∀ (xs : List α) (ys : List β),
      (∀ x ∈ xs, ∀ y ∈ ys, g x y = some (g' x y)) →
      seqOpt (List.zipWith g xs ys) = some (List.zipWith g' xs ys) := by
  intro xs
  induction xs with
  | nil => intro ys _; rfl
  | cons x xs ih =>
    intro ys h
    cases ys with
    | nil => rfl
    | cons y ys =>
      have hx : g x y = some (g' x y) :=
        h x (List.mem_cons_self x xs) y (List.mem_cons_self y ys)
      have ht := ih ys fun a ha b hb =>
        h a (List.mem_cons_of_mem x ha) b (List.mem_cons_of_mem y hb)
      simp [seqOpt, hx, ht]

theorem seqOpt_length {l : List (Option α)} {v : List α}
    (h : seqOpt l = some v) : v.length = l.length := by
  induction l generalizing v with
  | nil => simp [seqOpt] at h; simp [← h]
  | cons x xs ih =>
    cases x with
    | none => simp [seqOpt] at h
    | some a =>
      simp only [seqOpt, Option.some_bind] at h
      cases hx : seqOpt xs with
      | none => rw [hx] at h; simp at h
      | some vs =>
        rw [hx] at h
        simp at h
        rw [← h]
        simp [ih hx]

theorem exp_list_sum_pos : ∀ (l : List ℝ), l ≠ [] → 0 < (l.map Real.exp).sum := by
  intro l hl
  cases l with
  | nil => exact absurd rfl hl
  | cons x xs =>
    have h1 : 0 ≤ (xs.map Real.exp).sum :=
      List.sum_nonneg fun y hy => by
        rcases List.mem_map.mp hy with ⟨z, _, hz⟩
        exact hz ▸ (Real.exp_pos z).le
    calc (0 : ℝ) < Real.exp x := Real.exp_pos x
    _ ≤ Real.exp x + (xs.map Real.exp).sum := le_add_of_nonneg_right h1
    _ = ((x :: xs).map Real.exp).sum := by simp

theorem invCdf_lt_length : ∀ (ps : List ℝ) (u : ℝ), ps ≠ [] → invCdf ps u < ps.length := by
  intro ps
  induction ps with
  | nil => intro u h; exact absurd rfl h
  | cons p rest ih =>
    intro u _
    cases rest with
    | nil => simp [invCdf]
    | cons q rs =>
      rw [invCdf]
      split
      · simp
      · have := ih (u - p) (List.cons_ne_nil q rs)
        simpa [Nat.succ_lt_succ_iff] using this

theorem zipWith_mul_replicate_zero_sum :
    ∀ (xs : List ℝ) (n : ℕ),
      (List.zipWith (fun lp adv => lp * adv) xs (List.replicate n (0 : ℝ))).sum = 0 := by
  intro xs
  induction xs with
  | nil => intro n; simp
  | cons x xs ih =>
    intro n
    cases n with
    | zero => simp
    | succ m => simp [List.replicate_succ, ih m]

theorem categoricalLogProb_eq_log_softmax {l : List ℝ} {a : ℕ} (ha : a < l.length) :
    categoricalLogProb l a = Real.log ((softmax l).getD a 0) := by
  have hne : l ≠ [] := by
    intro h
    rw [h] at ha
    exact absurd ha (by simp)
  have hS : 0 < (l.map Real.exp).sum := exp_list_sum_pos l hne
  have hsm : a < (softmax l).length := by simpa [softmax] using ha
  rw [List.getD_eq_getElem _ _ hsm]
  have : (softmax l)[a] = Real.exp l[a] / (l.map Real.exp).sum := by
    simp [softmax]
  rw [this, Real.log_div (Real.exp_ne_zero _) (ne_of_gt hS), Real.log_exp]
  rw [categoricalLogProb, logsumexp, List.getD_eq_getElem _ _ ha]

/-! Reductions of `logProbBatch` and `update` on shape-aligned batches. -/

theorem logProbBatch_discrete_aligned {p : MLPPolicy} (hd : p.discrete = true)
    {obs : List (List ℝ)} {acts : List ℕ} (h : obs.length = acts.length) {A : ℕ}
    (hnet : ∀ o ∈ obs, (p.net o).length = A)
    (hrange : ∀ a ∈ acts, a < A) :
    MLPPolicyPG.logProbBatch p obs (.idx acts) =
      some (List.zipWith (fun o a => categoricalLogProb (p.net o) a) obs acts) := by
  simp only [MLPPolicyPG.logProbBatch, hd, if_true]
  rw [broadcastWith_of_length_eq h]
  exact seqOpt_zipWith_of_mem obs acts fun o ho a ha => by
    simp [MLPPolicy.forward, hd, ActionDistribution.logProbIdx, hnet o ho, hrange a ha]

theorem logProbBatch_continuous_aligned {p : MLPPolicy} (hd : p.discrete = false)
    {obs acts : List (List ℝ)} (h : obs.length = acts.length) {A : ℕ}
    (hnet : ∀ o ∈ obs, (p.net o).length = A)
    (hstd : p.logstd.length = A)
    (hact : ∀ a ∈ acts, a.length = A) :
    MLPPolicyPG.logProbBatch p obs (.vec acts) =
      some (List.zipWith
        (fun o a => (zipWith3 normalLogPdf (p.net o) (p.logstd.map Real.exp) a).sum)
        obs acts) := by
  simp only [MLPPolicyPG.logProbBatch, hd, Bool.false_eq_true, if_false]
  rw [broadcastWith_of_length_eq h]
  exact seqOpt_zipWith_of_mem obs acts fun o ho a ha => by
    simp [MLPPolicy.forward, hd, ActionDistribution.logProbRow, hnet o ho, hstd,
      hact a ha]

theorem update_discrete_aligned {p : MLPPolicy} (hd : p.discrete = true)
    {obs : List (List ℝ)} {acts : List ℕ} {advs : List ℝ}
    (ho : obs.length = acts.length) (hv : advs.length = obs.length) {A : ℕ}
    (hnet : ∀ o ∈ obs, (p.net o).length = A)
    (hrange : ∀ a ∈ acts, a < A) :
    MLPPolicyPG.update p obs (.idx acts) advs =
      some (-(((List.zipWith (fun o a => categoricalLogProb (p.net o) a) obs acts).zipWith
          (fun lp adv => lp * adv) advs).sum / (obs.length : ℝ))) := by
  have hL : (List.zipWith (fun o a => categoricalLogProb (p.net o) a) obs acts).length
      = advs.length := by
    rw [List.length_zipWith, ← ho, min_self, hv]
  have hP : (List.zipWith (fun lp adv => lp * adv)
      (List.zipWith (fun o a => categoricalLogProb (p.net o) a) obs acts) advs).length
      = obs.length := by
    rw [List.length_zipWith, hL, min_self, hv]
  simp only [MLPPolicyPG.update, logProbBatch_discrete_aligned hd ho hnet hrange,
    broadcastWith_of_length_eq hL, hP]

theorem update_continuous_aligned {p : MLPPolicy} (hd : p.discrete = false)
    {obs acts : List (List ℝ)} {advs : List ℝ}
    (ho : obs.length = acts.length) (hv : advs.length = obs.length) {A : ℕ}
    (hnet : ∀ o ∈ obs, (p.net o).length = A)
    (hstd : p.logstd.length = A)
    (hact : ∀ a ∈ acts, a.length = A) :
    MLPPolicyPG.update p obs (.vec acts) advs =
      some (-(((List.zipWith
          (fun o a => (zipWith3 normalLogPdf (p.net o) (p.logstd.map Real.exp) a).sum)
          obs acts).zipWith (fun lp adv => lp * adv) advs).sum / (obs.length : ℝ))) := by
  have hL : (List.zipWith
      (fun o a => (zipWith3 normalLogPdf (p.net o) (p.logstd.map Real.exp) a).sum)
      obs acts).length = advs.length := by
    rw [List.length_zipWith, ← ho, min_self, hv]
  have hP : (List.zipWith (fun lp adv => lp * adv)
      (List.zipWith
        (fun o a => (zipWith3 normalLogPdf (p.net o) (p.logstd.map Real.exp) a).sum)
        obs acts) advs).length = obs.length := by
    rw [List.length_zipWith, hL, min_self, hv]
  simp only [MLPPolicyPG.update,
    logProbBatch_continuous_aligned hd ho hnet hstd hact,
    broadcastWith_of_length_eq hL, hP]

/-- Claim C1: for every batch of observations, actions and advantages of equal
batch size, `MLPPolicyPG.update` computes the loss as the negated mean over the
batch of the log-probability of the taken action under the freshly recomputed
current distribution times the advantage; in continuous mode the per-dimension
log-probabilities are first summed across the action-dimension axis to yield
one scalar per batch element, and in discrete mode the log-probability of the
action index is used directly (the index must lie in the support — torch's
`Categorical.log_prob` raises outside it). -/
theorem update_loss_neg_mean_logprob_advantage (p : MLPPolicy)
    (obs : List (List ℝ)) (advs : List ℝ) (hn : 0 < obs.length)
    (hv : advs.length = obs.length) :
    (p.discrete = true → ∀ acts : List ℕ, acts.length = obs.length →
      (∀ o ∈ obs, (p.net o).length = p.ac_dim) →
      (∀ a ∈ acts, a < p.ac_dim) →
      MLPPolicyPG.update p obs (.idx acts) advs =
        some (-(((List.zipWith (fun o a => categoricalLogProb (p.net o) a) obs acts).zipWith
            (fun lp adv => lp * adv) advs).sum / (obs.length : ℝ)))) ∧
    (p.discrete = false → ∀ acts : List (List ℝ), acts.length = obs.length →
      (∀ o ∈ obs, (p.net o).length = p.ac_dim) →
      p.logstd.length = p.ac_dim →
      (∀ a ∈ acts, a.length = p.ac_dim) →
      MLPPolicyPG.update p obs (.vec acts) advs =
        some (-(((List.zipWith
            (fun o a => (zipWith3 normalLogPdf (p.net o) (p.logstd.map Real.exp) a).sum)
            obs acts).zipWith (fun lp adv => lp * adv) advs).sum / (obs.length : ℝ)))) := by
  constructor
  · intro hd acts ha hnet hrange
    exact update_discrete_aligned hd ha.symm hv hnet hrange
  · intro hd acts ha hnet hstd hact
    exact update_continuous_aligned hd ha.symm hv hnet hstd hact

/-- Witness for C1: the loss is evaluated at concrete inputs in both modes. -/
theorem update_loss_neg_mean_logprob_advantage_witness :
    MLPPolicyPG.update pWd [[0]] (.idx [1]) [3] = some (3 * Real.log 2) ∧
    MLPPolicyPG.update pWc [[0]] (.vec [[0]]) [2] =
      some (2 * Real.log (Real.sqrt (2 * Real.pi))) := by
  constructor
  · have h := (update_loss_neg_mean_logprob_advantage pWd [[0]] [3] (by simp) rfl).1
      rfl [1] rfl (by intro o ho; rfl) (by intro a ha; simp at ha; simp [ha, pWd])
    rw [h]
    norm_num [pWd, categoricalLogProb, logsumexp, List.getD, Real.exp_zero]
    ring
  · have h := (update_loss_neg_mean_logprob_advantage pWc [[0]] [2] (by simp) rfl).2
      rfl [[0]] rfl (by intro o ho; simp [pWc]) (by simp [pWc])
      (by intro a ha; simp at ha; simp [pWc, ha])
    rw [h]
    norm_num [pWc, zipWith3, normalLogPdf, Real.exp_zero, Real.log_one]
    ring

/-- Claim C2: the forward computation builds, in discrete mode, a categorical
distribution directly from the approximator's raw scores treated as
unnormalized log-probabilities (its log-probability is the log of the softmax
of the scores, with no separate softmax computed), and in continuous mode an
independent per-dimension Gaussian with mean the approximator's output and
standard deviation the elementwise exponential of `logstd`. -/
theorem forward_distribution_spec (p : MLPPolicy) (obs : List ℝ) :
    (p.discrete = true →
      p.forward obs = ActionDistribution.categorical (p.net obs) ∧
      ∀ a, a < (p.net obs).length →
        (p.forward obs).logProbIdx a =
          some (Real.log ((softmax (p.net obs)).getD a 0))) ∧
    (p.discrete = false →
      p.forward obs = ActionDistribution.normal (p.net obs) (p.logstd.map Real.exp)) := by
  constructor
  · intro hd
    constructor
    · simp [MLPPolicy.forward, hd]
    · intro a ha
      simp [MLPPolicy.forward, hd, ActionDistribution.logProbIdx, ha,
        categoricalLogProb_eq_log_softmax ha]
  · intro hd
    simp [MLPPolicy.forward, hd]

/-- Witness for C2 at a concrete discrete and a concrete continuous policy. -/
theorem forward_distribution_spec_witness :
    (pWd.discrete = true ∧ pWd.forward [0] = ActionDistribution.categorical [0, 0] ∧
      (pWd.forward [0]).logProbIdx 1 = some (Real.log ((softmax [0, 0]).getD 1 0))) ∧
    (pWc.discrete = false ∧ pWc.forward [0] = ActionDistribution.normal [0] [1]) := by
  refine ⟨⟨rfl, ?_, ?_⟩, rfl, ?_⟩
  · exact ((forward_distribution_spec pWd [0]).1 rfl).1
  · exact ((forward_distribution_spec pWd [0]).1 rfl).2 1 (by decide)
  · have h := (forward_distribution_spec pWc [0]).2 rfl
    simpa [pWc, Real.exp_zero] using h

/-- Claim C3: `get_action` builds the forward distribution for the single
observation and draws one sample from it — by standard sampling in discrete
mode and by the reparameterized location-plus-scale-times-noise form in
continuous mode — returning it as a plain numeric array; being a pure function
of the policy it mutates no policy state. -/
theorem get_action_one_sample_from_forward (p : MLPPolicy) (obs : List ℝ) (z : Noise) :
    (p.discrete = true →
      p.get_action obs z =
        some (NDArray.scalar (categoricalSample (p.net obs) z.u : ℕ))) ∧
    (p.discrete = false →
      p.get_action obs z =
        some (NDArray.vector
          (zipWith3 (fun m s e => m + s * e) (p.net obs) (p.logstd.map Real.exp) z.eps))) := by
  constructor <;> intro hd <;>
    simp [MLPPolicy.get_action, MLPPolicy.forward, hd, ActionDistribution.sample,
      ActionDistribution.rsample]

/-- Witness for C3 at concrete inputs in both modes. -/
theorem get_action_one_sample_from_forward_witness :
    (pWd.discrete = true ∧
      pWd.get_action [0] ⟨1 / 2, [1]⟩ =
        some (NDArray.scalar (categoricalSample [0, 0] (1 / 2) : ℕ))) ∧
    (pWc.discrete = false ∧
      pWc.get_action [0] ⟨1 / 2, [1]⟩ = some (NDArray.vector [1])) := by
  refine ⟨⟨rfl, ?_⟩, rfl, ?_⟩
  · exact (get_action_one_sample_from_forward pWd [0] ⟨1 / 2, [1]⟩).1 rfl
  · have h := (get_action_one_sample_from_forward pWc [0] ⟨1 / 2, [1]⟩).2 rfl
    simpa [pWc, zipWith3, Real.exp_zero] using h

/-- Claim C4: at construction of a continuous-mode policy, `logstd` is a
vector of length `ac_dim` of zeros, so the standard deviation used by the
forward action distribution is exactly 1 in every dimension. -/
theorem init_continuous_logstd_zero_unit_std (ac ob n_layers layer_size : ℕ)
    (lr : ℝ) (b : ℕ → ℕ → ℕ → ℕ → List ℝ → List ℝ) (obs : List ℝ) :
    (MLPPolicy.init ac ob false n_layers layer_size lr b).logstd =
      List.replicate ac 0 ∧
    (MLPPolicy.init ac ob false n_layers layer_size lr b).forward obs =
      ActionDistribution.normal
        ((MLPPolicy.init ac ob false n_layers layer_size lr b).net obs)
        (List.replicate ac 1) := by
  constructor
  · simp [MLPPolicy.init]
  · simp [MLPPolicy.init, MLPPolicy.forward, List.map_replicate, Real.exp_zero]

/-- Claim C6: calling `update` on the abstract base class always raises
`NotImplementedError`; it never returns a result. -/
theorem base_update_raises_not_implemented (p : MLPPolicy) (obs : List (List ℝ))
    (actions : ActionsBatch) :
    MLPPolicy.update p obs actions = Except.error "NotImplementedError" := rfl

/-- Claim C9: the scalar reported under the "Actor Loss" key by the full
update step equals the loss evaluated at the parameters as they were before
the optimizer step of that same call, returned as a plain detached number. -/
theorem updateStep_reports_prestep_loss {F : Type} [NormedAddCommGroup F]
    [InnerProductSpace ℝ F] [CompleteSpace F] (pol : F → MLPPolicy) (lr : ℝ)
    (obs : List (List ℝ)) (actions : ActionsBatch) (advs : List ℝ) (θ : F) :
    (MLPPolicyPG.updateStep pol lr obs actions advs θ).map Prod.fst =
      (MLPPolicyPG.update (pol θ) obs actions advs).map
        fun l => [("Actor Loss", l)] := by
  cases h : MLPPolicyPG.update (pol θ) obs actions advs <;>
    simp [MLPPolicyPG.updateStep, h]

/-- Claim C10: in discrete mode `get_action` returns the sampled action as a
scalar-shaped numeric array whose value is a natural number below `ac_dim`. -/
theorem get_action_discrete_scalar_index_in_range (p : MLPPolicy) (obs : List ℝ)
    (z : Noise) (hd : p.discrete = true) (hlen : (p.net obs).length = p.ac_dim)
    (hpos : 0 < p.ac_dim) :
    ∃ n : ℕ, p.get_action obs z = some (NDArray.scalar (n : ℝ)) ∧ n < p.ac_dim := by
  refine ⟨categoricalSample (p.net obs) z.u, ?_, ?_⟩
  · simp [MLPPolicy.get_action, MLPPolicy.forward, hd, ActionDistribution.sample]
  · have hlen2 : (softmax (p.net obs)).length = p.ac_dim := by
      rw [softmax, List.length_map]
      exact hlen
    have hne : softmax (p.net obs) ≠ [] := by
      intro hnil
      rw [hnil] at hlen2
      simp at hlen2
      omega
    have h3 := invCdf_lt_length (softmax (p.net obs)) z.u hne
    rw [hlen2] at h3
    simpa [categoricalSample] using h3

/-- Witness for C10 at a concrete discrete policy with two actions. -/
theorem get_action_discrete_scalar_index_in_range_witness :
    0 < pWd.ac_dim ∧
      ∃ n : ℕ, pWd.get_action [0] ⟨1 / 2, []⟩ = some (NDArray.scalar (n : ℝ)) ∧
        n < pWd.ac_dim :=
  ⟨by decide,
    get_action_discrete_scalar_index_in_range pWd [0] ⟨1 / 2, []⟩ rfl rfl (by decide)⟩

/-! Zero-advantage batches and shape-mismatch failure lemmas. -/

theorem update_discrete_zero_adv {p : MLPPolicy} (hd : p.discrete = true)
    {obs : List (List ℝ)} {acts : List ℕ} {n : ℕ}
    (ho : obs.length = n) (ha : acts.length = n) {A : ℕ}
    (hnet : ∀ o ∈ obs, (p.net o).length = A)
    (hrange : ∀ a ∈ acts, a < A) :
    MLPPolicyPG.update p obs (.idx acts) (List.replicate n (0 : ℝ)) = some 0 := by
  have hoa : obs.length = acts.length := by rw [ho, ha]
  have hv : (List.replicate n (0 : ℝ)).length = obs.length := by simp [ho]
  have h := update_discrete_aligned hd hoa hv hnet hrange
  rw [h, zipWith_mul_replicate_zero_sum]
  simp

theorem update_continuous_zero_adv {p : MLPPolicy} (hd : p.discrete = false)
    {obs acts : List (List ℝ)} {n : ℕ}
    (ho : obs.length = n) (ha : acts.length = n) {A : ℕ}
    (hnet : ∀ o ∈ obs, (p.net o).length = A)
    (hstd : p.logstd.length = A)
    (hact : ∀ a ∈ acts, a.length = A) :
    MLPPolicyPG.update p obs (.vec acts) (List.replicate n (0 : ℝ)) = some 0 := by
  have hoa : obs.length = acts.length := by rw [ho, ha]
  have hv : (List.replicate n (0 : ℝ)).length = obs.length := by simp [ho]
  have h := update_continuous_aligned hd hoa hv hnet hstd hact
  rw [h, zipWith_mul_replicate_zero_sum]
  simp

theorem logProbBatch_none_of_mismatch {p : MLPPolicy} {obs : List (List ℝ)}
    (actions : ActionsBatch) (h : obs.length ≠ actions.size)
    (h1 : obs.length ≠ 1) (h2 : actions.size ≠ 1) :
    MLPPolicyPG.logProbBatch p obs actions = none := by
  cases actions with
  | idx acts =>
    cases hd : p.discrete with
    | false => simp [MLPPolicyPG.logProbBatch, hd]
    | true =>
      simp only [MLPPolicyPG.logProbBatch, hd, if_true]
      rw [broadcastWith_none (by simpa [ActionsBatch.size] using h) h1
        (by simpa [ActionsBatch.size] using h2)]
  | vec acts =>
    cases hd : p.discrete with
    | true => simp [MLPPolicyPG.logProbBatch, hd]
    | false =>
      simp only [MLPPolicyPG.logProbBatch, hd, Bool.false_eq_true, if_false]
      rw [broadcastWith_none (by simpa [ActionsBatch.size] using h) h1
        (by simpa [ActionsBatch.size] using h2)]

theorem logProbBatch_length_of_size_eq {p : MLPPolicy} {obs : List (List ℝ)}
    {actions : ActionsBatch} {L : List ℝ}
    (hs : obs.length = actions.size)
    (h : MLPPolicyPG.logProbBatch p obs actions = some L) :
    L.length = obs.length := by
  cases actions with
  | idx acts =>
    cases hd : p.discrete with
    | false => simp [MLPPolicyPG.logProbBatch, hd] at h
    | true =>
      simp only [MLPPolicyPG.logProbBatch, hd, if_true] at h
      rw [broadcastWith_of_length_eq (by simpa [ActionsBatch.size] using hs)] at h
      have h' : seqOpt (List.zipWith (fun o a => (p.forward o).logProbIdx a) obs acts)
          = some L := h
      rw [seqOpt_length h', List.length_zipWith]
      simp only [ActionsBatch.size] at hs
      omega
  | vec acts =>
    cases hd : p.discrete with
    | true => simp [MLPPolicyPG.logProbBatch, hd] at h
    | false =>
      simp only [MLPPolicyPG.logProbBatch, hd, Bool.false_eq_true, if_false] at h
      rw [broadcastWith_of_length_eq (by simpa [ActionsBatch.size] using hs)] at h
      have h' : seqOpt (List.zipWith
          (fun o a => ((p.forward o).logProbRow a).map List.sum) obs acts) = some L := h
      rw [seqOpt_length h', List.length_zipWith]
      simp only [ActionsBatch.size] at hs
      omega

/-- Claim C5: for every batch whose advantages are all 0, one call to the full
update returns a loss that is exactly 0 and leaves the joint trainable
parameter point (approximator weights and, in continuous mode, `logstd`)
unchanged: the loss function of the parameters is constantly 0, so its
gradient vanishes and the optimizer step is the identity. -/
theorem updateStep_zero_advantages_noop {F : Type} [NormedAddCommGroup F]
    [InnerProductSpace ℝ F] [CompleteSpace F] (pol : F → MLPPolicy) (lr : ℝ)
    (θ : F) (obs : List (List ℝ)) (n : ℕ) (ho : obs.length = n) (hn : 0 < n) :
    (∀ acts : List ℕ, acts.length = n → (∀ t, (pol t).discrete = true) →
      (∀ t, ∀ o ∈ obs, ((pol t).net o).length = (pol t).ac_dim) →
      (∀ t, ∀ a ∈ acts, a < (pol t).ac_dim) →
      MLPPolicyPG.updateStep pol lr obs (.idx acts) (List.replicate n 0) θ =
        some ([("Actor Loss", 0)], θ)) ∧
    (∀ acts : List (List ℝ), acts.length = n → (∀ t, (pol t).discrete = false) →
      (∀ t, ∀ o ∈ obs, ((pol t).net o).length = (pol t).ac_dim) →
      (∀ t, (pol t).logstd.length = (pol t).ac_dim) →
      (∀ t, ∀ a ∈ acts, a.length = (pol t).ac_dim) →
      MLPPolicyPG.updateStep pol lr obs (.vec acts) (List.replicate n 0) θ =
        some ([("Actor Loss", 0)], θ)) := by
  constructor
  · intro acts ha hmode hnet hrange
    have key : ∀ t, MLPPolicyPG.update (pol t) obs (.idx acts)
        (List.replicate n (0 : ℝ)) = some 0 :=
      fun t => update_discrete_zero_adv (hmode t) ho ha (hnet t) (hrange t)
    have hfun : (fun t => (MLPPolicyPG.update (pol t) obs (.idx acts)
        (List.replicate n (0 : ℝ))).getD 0) = fun _ => (0 : ℝ) := by
      funext t
      rw [key t]
      rfl
    simp [MLPPolicyPG.updateStep, key θ, gradStep, hfun, gradient_const, smul_zero,
      sub_zero]
  · intro acts ha hmode hnet hstd hact
    have key : ∀ t, MLPPolicyPG.update (pol t) obs (.vec acts)
        (List.replicate n (0 : ℝ)) = some 0 :=
      fun t => update_continuous_zero_adv (hmode t) ho ha (hnet t) (hstd t) (hact t)
    have hfun : (fun t => (MLPPolicyPG.update (pol t) obs (.vec acts)
        (List.replicate n (0 : ℝ))).getD 0) = fun _ => (0 : ℝ) := by
      funext t
      rw [key t]
      rfl
    simp [MLPPolicyPG.updateStep, key θ, gradStep, hfun, gradient_const, smul_zero,
      sub_zero]

/-- Witness for C5 at a concrete one-parameter discrete policy family. -/
theorem updateStep_zero_advantages_noop_witness :
    MLPPolicyPG.updateStep polW 1 [[0]] (.idx [0]) (List.replicate 1 0) (0 : ℝ) =
      some ([("Actor Loss", 0)], 0) :=
  (updateStep_zero_advantages_noop polW 1 0 [[0]] 1 rfl (by decide)).1 [0] rfl
    (fun t => rfl) (fun t o ho => rfl)
    fun t a ha => by
      simp [polW] at ha ⊢
      omega

/-- Counterexample to claim C7: construction with the invalid dimension
`ac_dim = 0` does not fail fast with an invalid-argument signal — it produces
a Policy object. -/
theorem init_accepts_invalid_dims :
    MLPPolicy.init 0 1 false 0 1 2 (fun _ _ _ _ => id) =
      { ac_dim := 0, ob_dim := 1, discrete := false, net := id, logstd := [],
        learning_rate := 2 } := rfl

/-- Amended claim C7: the constructor performs no dimension validation; even
with the invalid dimension `ac_dim = 0` it produces a Policy object carrying
the requested fields, raising no invalid-argument signal. -/
theorem init_no_dimension_validation (ob n_layers layer_size : ℕ) (d : Bool)
    (lr : ℝ) (b : ℕ → ℕ → ℕ → ℕ → List ℝ → List ℝ) :
    (MLPPolicy.init 0 ob d n_layers layer_size lr b).ac_dim = 0 ∧
    (MLPPolicy.init 0 ob d n_layers layer_size lr b).ob_dim = ob ∧
    (MLPPolicy.init 0 ob d n_layers layer_size lr b).discrete = d ∧
    (MLPPolicy.init 0 ob d n_layers layer_size lr b).learning_rate = lr :=
  ⟨rfl, rfl, rfl, rfl⟩

/-- Counterexample to claim C8: a call with observation and action batch size
2 but advantage batch size 1 does not propagate an invalid-argument failure —
the length-1 advantages are silently broadcast and a loss is computed. -/
theorem update_broadcasts_singleton_advantages :
    MLPPolicyPG.update pWd [[0], [1]] (.idx [0, 1]) [1] = some (Real.log 2) := by
  have hlp : MLPPolicyPG.logProbBatch pWd [[0], [1]] (.idx [0, 1]) =
      some [categoricalLogProb [0, 0] 0, categoricalLogProb [0, 0] 1] := by
    have hoa : ([[0], [1]] : List (List ℝ)).length = ([0, 1] : List ℕ).length := rfl
    have h := logProbBatch_discrete_aligned (p := pWd) rfl hoa (A := 2)
      (fun o ho => rfl) (fun a ha => by simp at ha; omega)
    simpa [pWd] using h
  have hb : broadcastWith (fun lp adv => lp * adv)
      [categoricalLogProb [0, 0] 0, categoricalLogProb [0, 0] 1] [1] =
      some [categoricalLogProb [0, 0] 0 * 1, categoricalLogProb [0, 0] 1 * 1] := rfl
  simp only [MLPPolicyPG.update, hlp, hb]
  norm_num [categoricalLogProb, logsumexp, List.getD, Real.exp_zero]

/-- Amended claim C8: when the batch sizes of observations, actions and
advantages are not all equal and none of them is 1, the call fails and
produces no result; a mismatched input of batch size 1, however, is silently
broadcast (see the counterexample with a single advantage), as torch
broadcasting permits. -/
theorem update_mismatch_without_singleton_fails (p : MLPPolicy)
    (obs : List (List ℝ)) (actions : ActionsBatch) (advs : List ℝ)
    (hne : ¬(obs.length = actions.size ∧ actions.size = advs.length))
    (h1 : obs.length ≠ 1) (h2 : actions.size ≠ 1) (h3 : advs.length ≠ 1) :
    MLPPolicyPG.update p obs actions advs = none := by
  by_cases hob : obs.length = actions.size
  · have hadv : advs.length ≠ obs.length := by
      intro hh
      exact hne ⟨hob, by omega⟩
    cases hL : MLPPolicyPG.logProbBatch p obs actions with
    | none => simp [MLPPolicyPG.update, hL]
    | some L =>
      have hlen := logProbBatch_length_of_size_eq hob hL
      simp only [MLPPolicyPG.update, hL]
      rw [broadcastWith_none (by rw [hlen]; exact fun hh => hadv hh.symm)
        (by rw [hlen]; exact h1) h3]
  · have hnone := logProbBatch_none_of_mismatch (p := p) actions hob h1 h2
    simp [MLPPolicyPG.update, hnone]

/-- Witness for the amended claim C8: batch sizes 2, 3 and 0 make the update
fail. -/
theorem update_mismatch_without_singleton_fails_witness :
    MLPPolicyPG.update pWd [[0], [1]] (.idx [0, 1, 0]) [] = none :=
  update_mismatch_without_singleton_fails pWd [[0], [1]] (.idx [0, 1, 0]) []
    (by decide) (by decide) (by decide) (by decide)

/-- Witness for C9: at a concrete one-parameter policy family over the real
line, the reported dictionary is the pre-step loss. -/
theorem updateStep_reports_prestep_loss_witness :
    (MLPPolicyPG.updateStep polW 1 [[0]] (.idx [0]) [1] (0 : ℝ)).map Prod.fst =
      (MLPPolicyPG.update (polW 0) [[0]] (.idx [0]) [1]).map
        fun l => [("Actor Loss", l)] :=
  updateStep_reports_prestep_loss polW 1 [[0]] (.idx [0]) [1] 0
